import Mathlib

/-
Verification development for the crank CLI run command
(src/src/commands/run.ts). The data model and the run coordinator loop are
translated from the source; components whose source is not in the excerpt
(the Timer service, the Scenario plan derivation, the step runner reject
shapes, the cog manager teardown and the command lifecycle) are modelled
from the specification and marked as such in their doc comments.
-/

namespace Crank

/-- Outcome tags of a RunStepResponse, from proto/cog_pb. -/
inductive Outcome
  | PASSED
  | FAILED
  | ERROR
deriving DecidableEq

/-- Returns true exactly on the PASSED tag, mirroring the comparison
s.getOutcome() !== RunStepResponse.Outcome.PASSED in run.ts. -/
def isPassed : Outcome → Bool
  | Outcome.PASSED => true
  | _ => false

/-- One protocol-level operation payload (an opaque descriptor). -/
structure ProtoStep where
  id : Nat
deriving DecidableEq

instance : Inhabited ProtoStep := ⟨⟨0⟩⟩

/-- The runner Step model (models/step.ts, as used by run.ts): the fields
read by the run command are the cog name, the ordered protoSteps and
stepText sequences, the attached client handle, and the waitFor and
failAfter sequences, each indexed at 0 when a group is merged. The client
handle is modelled as an opaque numeric identifier. -/
structure RunnerStep where
  cog : String
  protoSteps : List ProtoStep
  stepText : List String
  client : Nat
  waitFor : List Nat
  failAfter : List Nat
deriving DecidableEq

instance : Inhabited RunnerStep := ⟨⟨"", [], [], 0, [], []⟩⟩

/-- A plan element is either a single step or a step group, mirroring the
step instanceof Array discrimination in run.ts. -/
inductive PlanElem
  | single (s : RunnerStep)
  | group (g : List RunnerStep)
deriving DecidableEq

/-- The merged runner step the coordinator builds for a step group, from
run.ts lines 228 to 236: cog and client come from the first member, and
protoSteps, stepText, waitFor and failAfter each take the first entry of
the corresponding member field, one per member. -/
def mergedRunner (g : List RunnerStep) : RunnerStep :=
  { cog := g.headI.cog
    protoSteps := g.map (fun s => s.protoSteps.headI)
    stepText := g.map (fun s => s.stepText.headI)
    client := g.headI.client
    waitFor := g.map (fun s => s.waitFor.headI)
    failAfter := g.map (fun s => s.failAfter.headI) }

/-- Modelled from the spec: the Scenario plan optimizer (models/scenario.ts
is not under src). Section 4.2 of the spec: the merge criterion is decided
upstream and presented as already-delimited runs; the optimizer emits a
single step for a run of length one and a step group otherwise, preserving
order. -/
def optimizedSteps (runs : List (List RunnerStep)) : List PlanElem :=
  runs.map (fun r => if r.length = 1 then PlanElem.single r.headI else PlanElem.group r)

/-- The steps contained in one plan element. -/
def planSteps : PlanElem → List RunnerStep
  | PlanElem.single s => [s]
  | PlanElem.group g => g

/-- The operation descriptors the coordinator hands to the step runner for
one plan element: a single step is executed as is, a group is executed
through the merged runner step. -/
def execDescriptors : PlanElem → List ProtoStep
  | PlanElem.single s => s.protoSteps
  | PlanElem.group g => (mergedRunner g).protoSteps

/-- The display texts the coordinator hands to the step runner for one plan
element. -/
def execTexts : PlanElem → List String
  | PlanElem.single s => s.stepText
  | PlanElem.group g => (mergedRunner g).stepText

/-- Modelled from the spec: the Timer service (services/timer.ts is not
under src) holds counters for passed, failed and skipped step units,
section 3 of the spec. -/
structure Timer where
  passed : Nat
  failed : Nat
  skipped : Nat
deriving DecidableEq

/-- Fresh timer with all counters at zero. -/
def Timer.init : Timer := ⟨0, 0, 0⟩

/-- Modelled from the spec: addPassedStep increments the passed counter by
the given count (the source call sites pass either no argument, meaning
one, or a group length). -/
def Timer.addPassedStep (t : Timer) (n : Nat) : Timer :=
  { t with passed := t.passed + n }

/-- Modelled from the spec: addFailedStep increments the failed counter. -/
def Timer.addFailedStep (t : Timer) (n : Nat) : Timer :=
  { t with failed := t.failed + n }

/-- Modelled from the spec: addSkippedStep increments the skipped counter. -/
def Timer.addSkippedStep (t : Timer) (n : Nat) : Timer :=
  { t with skipped := t.skipped + n }

/-- One plan element together with the outcome of executing it, the input
to the coordinator loop. A single step carries the outcome tag of its one
RPC (runStep rejects on any tag other than PASSED). A group carries the
ordered RunStepResponse outcome list the group runner surfaces; modelled
from the spec, runSteps resolves when every outcome is PASSED and rejects
with the full ordered outcome list otherwise. -/
inductive ExecElem
  | single (s : RunnerStep) (r : Outcome)
  | group (g : List RunnerStep) (rs : List Outcome)
deriving DecidableEq

/-- The plan element of an executed element. -/
def ExecElem.plan : ExecElem → PlanElem
  | ExecElem.single s _ => PlanElem.single s
  | ExecElem.group g _ => PlanElem.group g

/-- Whether executing the element fails, that is whether the coordinator
loop takes its catch branch on this element. -/
def elemFailed : ExecElem → Bool
  | ExecElem.single _ r => ! isPassed r
  | ExecElem.group _ rs => ! rs.all isPassed

/-- Number of non PASSED responses in a group outcome list, from the
failures filter in the catch branch of run.ts. -/
def countFailures (rs : List Outcome) : Nat :=
  (rs.filter (fun r => ! isPassed r)).length

/-- Step unit count of a plan suffix: one per single step, the member
count per group. -/
def stepUnits : List ExecElem → Nat
  | [] => 0
  | ExecElem.single _ _ :: rest => 1 + stepUnits rest
  | ExecElem.group g _ :: rest => g.length + stepUnits rest

/-- The cascade skip loop from run.ts lines 265 to 276: it walks
optimizedSteps.slice(stepIndex), the failed element included; a group
element skips its members from innerIndex on and resets innerIndex to
zero, a single element is marked skipped and leaves innerIndex
unchanged. -/
def cascadeSkip : List ExecElem → Nat → Timer → Timer
  | [], _, t => t
  | ExecElem.group g _ :: rest, inner, t =>
      cascadeSkip rest 0 (t.addSkippedStep (g.drop inner).length)
  | ExecElem.single _ _ :: rest, inner, t =>
      cascadeSkip rest inner (t.addSkippedStep 1)

/-- The per scenario coordinator loop from run.ts lines 224 to 277: walk
the plan in order; a passing single step adds one passed unit, a passing
group adds one passed unit per member; on failure a single step adds one
failed unit and rejects with innerIndex zero, a group splits its outcome
list into passed and failed counts and rejects with innerIndex equal to
the outcome list length; the catch branch then runs the cascade skip over
the plan from the failed element on. Returns the scenario timer and
whether the scenario aborted. -/
def runScenario : List ExecElem → Timer → Timer × Bool
  | [], t => (t, false)
  | ExecElem.single s r :: rest, t =>
      if isPassed r then runScenario rest (t.addPassedStep 1)
      else (cascadeSkip (ExecElem.single s r :: rest) 0 (t.addFailedStep 1), true)
  | ExecElem.group g rs :: rest, t =>
      if rs.all isPassed then runScenario rest (t.addPassedStep g.length)
      else
        (cascadeSkip (ExecElem.group g rs :: rest) rs.length
          ((t.addPassedStep (rs.length - countFailures rs)).addFailedStep (countFailures rs)),
         true)

/-- A scenario as the batch loop sees it: a name and the executed plan. -/
structure ScenarioExec where
  name : String
  elems : List ExecElem
deriving DecidableEq

/-- Setup stage errors of run.ts: the error classes checked in the catch
block, plus a generic error for anything else thrown while parsing
scenario files or attaching clients. -/
inductive RunError
  | resolution (msg : String)
  | authentication (msg : String) (helpUrl : Option String)
  | missingStep (msg : String)
  | generic (msg : String)
deriving DecidableEq

/-- Message text of a setup error. -/
def errMsg : RunError → String
  | RunError.resolution m => m
  | RunError.authentication m _ => m
  | RunError.missingStep m => m
  | RunError.generic m => m

/-- Observable log events of the run command relevant to the claims. -/
inductive LogEvent
  | errorBanner
  | errorDetail (msg : String)
  | authHelpUrl (u : String)
  | registryHint
  | scenarioHeader (name : String)
deriving DecidableEq

/-- Result of one invocation of the run command body. -/
structure BatchResult where
  exitFlag : Bool
  overall : Timer
  timers : List Timer
  log : List LogEvent
deriving DecidableEq

/-- The batch loop from run.ts lines 218 to 279: scenarios run one at a
time in order; each scenario logs its header, runs to a timer and an
aborted flag, adds one failed unit to the overall timer when aborted and
one passed unit otherwise, and sets the process exit flag on abort. -/
def runScenarios : List ScenarioExec → Bool → Timer → List Timer → List LogEvent → BatchResult
  | [], flag, overall, timers, log =>
      { exitFlag := flag, overall := overall, timers := timers, log := log }
  | sc :: rest, flag, overall, timers, log =>
      let res := runScenario sc.elems Timer.init
      runScenarios rest (flag || res.2)
        (if res.2 then overall.addFailedStep 1 else overall.addPassedStep 1)
        (timers ++ [res.1]) (log ++ [LogEvent.scenarioHeader sc.name])

/-- The run command body, run.ts lines 169 to 288: a setup stage error is
reported once with the red banner, an authentication error additionally
surfaces its help URL when present, a missing step error adds the registry
hint; the exit flag is set and the command returns before any scenario
runs. On successful setup the batch loop runs every scenario. -/
def runBatch : Except RunError (List ScenarioExec) → BatchResult
  | Except.error e =>
      { exitFlag := true
        overall := Timer.init
        timers := []
        log := [LogEvent.errorBanner, LogEvent.errorDetail (errMsg e)]
          ++ (match e with
              | RunError.authentication _ (some u) => [LogEvent.authHelpUrl u]
              | _ => [])
          ++ (match e with
              | RunError.missingStep _ => [LogEvent.registryHint]
              | _ => []) }
  | Except.ok scenarios => runScenarios scenarios false Timer.init [] []

/-- Modelled from the spec: a live connector session held by the cog
manager; stopFails records whether terminating this session will fail. -/
structure Session where
  id : Nat
  stopFails : Bool
deriving DecidableEq

/-- Modelled from the spec: CogManager.stopAllCogs (services/cog-manager.ts
is not under src) terminates every live session best effort; individual
teardown failures are recorded as warnings and never rethrown, section 4.1
of the spec. Returns the number of teardown warnings. -/
def stopAllCogs (sessions : List Session) : Nat :=
  (sessions.filter (fun s => s.stopFails)).length

/-- Result of one whole command invocation, teardown included. -/
structure CommandResult where
  exitFlag : Bool
  teardownInvocations : Nat
  teardownWarnings : Nat
deriving DecidableEq

/-- Modelled from the spec: the command lifecycle invokes the one line
finally hook of run.ts lines 290 to 292, which calls stopAllCogs, after
the run body on every exit path, whether the body returned a result or
threw; teardown warnings never change the exit flag, sections 5 and 7 of
the spec. An unexpected throw out of the body is converted to a reported
failure, never an unhandled crash. -/
def runCommandWithFinally (body : Except String BatchResult) (sessions : List Session) :
    CommandResult :=
  match body with
  | Except.ok r =>
      { exitFlag := r.exitFlag
        teardownInvocations := 1
        teardownWarnings := stopAllCogs sessions }
  | Except.error _ =>
      { exitFlag := true
        teardownInvocations := 1
        teardownWarnings := stopAllCogs sessions }

/-- Split of a character list at every equals sign, mirroring the
behaviour of the JavaScript string split on a raw token flag value:
splitting the empty string yields one empty part, and every separator
starts a new part. -/
def splitEq : List Char → List (List Char)
  | [] => [[]]
  | c :: cs =>
      if c = '=' then [] :: splitEq cs
      else
        match splitEq cs with
        | [] => [[c]]
        | p :: ps => (c :: p) :: ps

/-- Join inverse of splitEq, used to state and prove its structure. -/
def joinEq : List (List Char) → List Char
  | [] => []
  | [p] => p
  | p :: ps => p ++ '=' :: joinEq ps

/-- The per flag token analysis of Run.parseTokens, run.ts lines 302 to
310: token.split with limit two, then keep the pair only when both sides
are non empty (the truthiness test on splat[0] and splat[1]). -/
def tokenEntry (tok : List Char) : Option (List Char × List Char) :=
  match (splitEq tok).take 2 with
  | [a, b] => if a ≠ [] ∧ b ≠ [] then some (a, b) else none
  | _ => none

/-- Run.parseTokens, run.ts lines 299 to 313: fold the raw flag values in
order into a token mapping, a later valid entry overwriting an earlier one
under the same name. The mapping is modelled as a lookup function. -/
def parseTokens (raws : List (List Char)) : List Char → Option (List Char) :=
  raws.foldl
    (fun acc tok =>
      match tokenEntry tok with
      | some nv => fun k => if k = nv.1 then some nv.2 else acc k
      | none => acc)
    (fun _ => none)

/-- Run.parseScenarioFiles, run.ts lines 315 to 349, with the filesystem
probed through two inputs: whether the path is a directory (false also
when lstat throws) and the list of files the recursive crank.yml glob
finds. A non directory path is parsed as a single scenario file; a
directory with no matching file throws; otherwise every matching file
becomes a scenario. Scenarios are identified here by their file path. -/
def parseScenarioFiles (isDirectory : Bool) (crankFiles : List String) (path : String) :
    Except String (List String) :=
  if ! isDirectory then Except.ok [path]
  else if crankFiles.isEmpty then
    Except.error ("No .crank.yml files found in " ++ path)
  else Except.ok crankFiles

lemma countFailures_le (rs : List Outcome) : countFailures rs ≤ rs.length :=
  List.length_filter_le _ _

lemma runScenario_aborted_any (es : List ExecElem) (t : Timer) :
    (runScenario es t).2 = es.any elemFailed := by
  induction es generalizing t with
  | nil => simp [runScenario]
  | cons e rest ih =>
      cases e with
      | single s r =>
          cases h : isPassed r <;>
            simp [runScenario, elemFailed, h, ih]
      | group g rs =>
          cases h : rs.all isPassed <;>
            simp [runScenario, elemFailed, h, ih]

lemma runScenario_all_passed (es : List ExecElem) (t : Timer)
    (h : es.all (fun e => ! elemFailed e) = true) :
    runScenario es t = ({ t with passed := t.passed + stepUnits es }, false) := by
  induction es generalizing t with
  | nil => simp [runScenario, stepUnits]
  | cons e rest ih =>
      rw [List.all_cons, Bool.and_eq_true] at h
      cases e with
      | single s r =>
          have hp : isPassed r = true := by
            have := h.1; simpa [elemFailed] using this
          rw [runScenario, if_pos hp, ih _ h.2]
          simp [Timer.addPassedStep, stepUnits]
          omega
      | group g rs =>
          have hp : rs.all isPassed = true := by
            have := h.1; simpa [elemFailed] using this
          rw [runScenario, if_pos hp, ih _ h.2]
          simp [Timer.addPassedStep, stepUnits]
          omega

lemma runScenarios_exitFlag (scs : List ScenarioExec) (flag : Bool) (ov : Timer)
    (ts : List Timer) (lg : List LogEvent) :
    (runScenarios scs flag ov ts lg).exitFlag
      = (flag || scs.any (fun sc => (runScenario sc.elems Timer.init).2)) := by
  induction scs generalizing flag ov ts lg with
  | nil => simp [runScenarios]
  | cons sc rest ih => simp [runScenarios, ih, Bool.or_assoc]

lemma runScenarios_timers (scs : List ScenarioExec) (flag : Bool) (ov : Timer)
    (ts : List Timer) (lg : List LogEvent) :
    (runScenarios scs flag ov ts lg).timers
      = ts ++ scs.map (fun sc => (runScenario sc.elems Timer.init).1) := by
  induction scs generalizing flag ov ts lg with
  | nil => simp [runScenarios]
  | cons sc rest ih => simp [runScenarios, ih]

lemma runScenarios_overall_passed (scs : List ScenarioExec) (flag : Bool) (ov : Timer)
    (ts : List Timer) (lg : List LogEvent) :
    (runScenarios scs flag ov ts lg).overall.passed
      = ov.passed + scs.countP (fun sc => ! (runScenario sc.elems Timer.init).2) := by
  induction scs generalizing flag ov ts lg with
  | nil => simp [runScenarios]
  | cons sc rest ih =>
      cases h : (runScenario sc.elems Timer.init).2 <;>
        simp [runScenarios, ih, h, Timer.addPassedStep, Timer.addFailedStep,
          List.countP_cons] <;> omega

lemma runScenarios_overall_failed (scs : List ScenarioExec) (flag : Bool) (ov : Timer)
    (ts : List Timer) (lg : List LogEvent) :
    (runScenarios scs flag ov ts lg).overall.failed
      = ov.failed + scs.countP (fun sc => (runScenario sc.elems Timer.init).2) := by
  induction scs generalizing flag ov ts lg with
  | nil => simp [runScenarios]
  | cons sc rest ih =>
      cases h : (runScenario sc.elems Timer.init).2 <;>
        simp [runScenarios, ih, h, Timer.addPassedStep, Timer.addFailedStep,
          List.countP_cons] <;> omega

lemma runScenarios_overall_units (scs : List ScenarioExec) (flag : Bool) (ov : Timer)
    (ts : List Timer) (lg : List LogEvent) :
    (runScenarios scs flag ov ts lg).overall.passed
      + (runScenarios scs flag ov ts lg).overall.failed
      = ov.passed + ov.failed + scs.length := by
  induction scs generalizing flag ov ts lg with
  | nil => simp [runScenarios]
  | cons sc rest ih =>
      cases h : (runScenario sc.elems Timer.init).2 <;>
        simp [runScenarios, ih, h, Timer.addPassedStep, Timer.addFailedStep] <;> omega

lemma runScenarios_overall_skipped (scs : List ScenarioExec) (flag : Bool) (ov : Timer)
    (ts : List Timer) (lg : List LogEvent) :
    (runScenarios scs flag ov ts lg).overall.skipped = ov.skipped := by
  induction scs generalizing flag ov ts lg with
  | nil => simp [runScenarios]
  | cons sc rest ih =>
      cases h : (runScenario sc.elems Timer.init).2 <;>
        simp [runScenarios, ih, h, Timer.addPassedStep, Timer.addFailedStep]

/-- C1: at the exact scenario of the claim, a two step plan with no
grouping whose first step fails, the coordinator counts the failed step
itself as skipped as well, because the cascade skip loop slices the plan
from the failed index inclusive: the counters are passed 0, failed 1,
skipped 2 over a plan of 2 step units, so passed plus failed plus skipped
is 3, one more than the step unit total, and both steps receive the skip
marker, not only the second one. -/
theorem c1_failed_single_also_counted_skipped :
    runScenario
      [ExecElem.single ⟨"cogA", [⟨1⟩], ["A"], 0, [0], [0]⟩ Outcome.FAILED,
       ExecElem.single ⟨"cogB", [⟨2⟩], ["B"], 1, [0], [0]⟩ Outcome.PASSED]
      Timer.init
      = (⟨0, 1, 2⟩, true)
    ∧ stepUnits
        [ExecElem.single ⟨"cogA", [⟨1⟩], ["A"], 0, [0], [0]⟩ Outcome.FAILED,
         ExecElem.single ⟨"cogB", [⟨2⟩], ["B"], 1, [0], [0]⟩ Outcome.PASSED] = 2 := by
  decide

/-- C3: across a batch, the overall timer gains exactly one unit per
scenario, a passed unit when the scenario did not abort and a failed unit
when it did, and its skipped counter stays zero; each scenario timer
counts at step granularity: a scenario whose elements all succeed ends
with one passed unit per step unit, and a one group scenario whose
outcome list covers every member accumulates exactly one passed or failed
unit per member. -/
theorem c3_overall_timer_unit_per_scenario (scenarios : List ScenarioExec) :
    (runBatch (Except.ok scenarios)).overall.passed
        = scenarios.countP (fun sc => ! (runScenario sc.elems Timer.init).2)
    ∧ (runBatch (Except.ok scenarios)).overall.failed
        = scenarios.countP (fun sc => (runScenario sc.elems Timer.init).2)
    ∧ (runBatch (Except.ok scenarios)).overall.passed
        + (runBatch (Except.ok scenarios)).overall.failed = scenarios.length
    ∧ (runBatch (Except.ok scenarios)).overall.skipped = 0
    ∧ (∀ sc ∈ scenarios, sc.elems.all (fun e => ! elemFailed e) = true →
        (runScenario sc.elems Timer.init).1
          = { passed := stepUnits sc.elems, failed := 0, skipped := 0 })
    ∧ (∀ g rs, rs.length = g.length →
        (runScenario [ExecElem.group g rs] Timer.init).1.passed
          + (runScenario [ExecElem.group g rs] Timer.init).1.failed = g.length) := by
  refine ⟨?_, ?_, ?_, ?_, ?_, ?_⟩
  · have hp := runScenarios_overall_passed scenarios false Timer.init [] []
    simp only [Timer.init] at hp ⊢
    simpa [runBatch] using hp
  · have hf := runScenarios_overall_failed scenarios false Timer.init [] []
    simp only [Timer.init] at hf ⊢
    simpa [runBatch] using hf
  · have hu := runScenarios_overall_units scenarios false Timer.init [] []
    simp only [Timer.init] at hu ⊢
    simpa [runBatch] using hu
  · simpa [runBatch] using runScenarios_overall_skipped scenarios false Timer.init [] []
  · intro sc _ hall
    rw [runScenario_all_passed sc.elems Timer.init hall]
    simp [Timer.init]
  · intro g rs hlen
    by_cases hall : rs.all isPassed = true
    · simp [runScenario, hall, Timer.addPassedStep, Timer.init]
    · have hle := countFailures_le rs
      simp [runScenario, hall, cascadeSkip, Timer.addPassedStep, Timer.addFailedStep,
        Timer.addSkippedStep, Timer.init]
      omega

/-- C4: for a batch that gets past setup, the exit flag ends true exactly
when some step or group member of some scenario failed, every scenario
still contributes its timer to the batch result (the batch runs to
completion), the timer count is stable for any accumulator state, and an
already set flag is never cleared by later scenarios; a setup error also
sets the flag. -/
theorem c4_exit_flag_set_batch_completes (scenarios : List ScenarioExec) (e : RunError) :
    ((runBatch (Except.ok scenarios)).timers.length = scenarios.length)
    ∧ ((runBatch (Except.ok scenarios)).exitFlag = true
        ↔ ∃ sc ∈ scenarios, ∃ el ∈ sc.elems, elemFailed el = true)
    ∧ (∀ flag ov ts lg, (runScenarios scenarios flag ov ts lg).timers.length
        = ts.length + scenarios.length)
    ∧ ((runScenarios scenarios true Timer.init [] []).exitFlag = true)
    ∧ ((runBatch (Except.error e)).exitFlag = true) := by
  refine ⟨?_, ?_, ?_, ?_, ?_⟩
  · simp [runBatch, runScenarios_timers]
  · rw [show (runBatch (Except.ok scenarios)).exitFlag
        = (runScenarios scenarios false Timer.init [] []).exitFlag from rfl,
      runScenarios_exitFlag]
    simp only [Bool.false_or, List.any_eq_true]
    constructor
    · rintro ⟨sc, hsc, hab⟩
      rw [runScenario_aborted_any, List.any_eq_true] at hab
      exact ⟨sc, hsc, hab⟩
    · rintro ⟨sc, hsc, el, hel, hfail⟩
      refine ⟨sc, hsc, ?_⟩
      rw [runScenario_aborted_any, List.any_eq_true]
      exact ⟨el, hel, hfail⟩
  · intro flag ov ts lg
    simp [runScenarios_timers]
  · simp [runScenarios_exitFlag]
  · simp [runBatch]

/-- C5: a setup stage error, resolution or authentication class, aborts
the whole batch before any step executes: no scenario timer is created
and no scenario header is logged, the error detail is reported exactly
once, the exit flag is set, and an authentication error with a help URL
surfaces that URL in the log. -/
theorem c5_setup_error_aborts_before_steps (e : RunError) :
    (runBatch (Except.error e)).exitFlag = true
    ∧ (runBatch (Except.error e)).timers = []
    ∧ (runBatch (Except.error e)).overall = Timer.init
    ∧ (runBatch (Except.error e)).log.count (LogEvent.errorDetail (errMsg e)) = 1
    ∧ (∀ name, LogEvent.scenarioHeader name ∉ (runBatch (Except.error e)).log)
    ∧ (∀ m u, e = RunError.authentication m (some u) →
        LogEvent.authHelpUrl u ∈ (runBatch (Except.error e)).log) := by
  refine ⟨by simp [runBatch], by simp [runBatch], by simp [runBatch], ?_, ?_, ?_⟩
  · cases e with
    | authentication m hu => cases hu <;> simp [runBatch, errMsg, List.count_cons]
    | _ => simp [runBatch, errMsg, List.count_cons]
  · intro name
    cases e with
    | authentication m hu => cases hu <;> simp [runBatch]
    | _ => simp [runBatch]
  · rintro m u rfl
    simp [runBatch]

/-- C6: the merged runner step of a group of N members carries exactly N
operation descriptors, N display texts, N waitFor values and N failAfter
values, and at every index i its waitFor and failAfter equal the first
entry of the waitFor and failAfter sequences of member i, so each sub step
keeps its own delay and deadline. -/
theorem c6_merged_group_keeps_per_member_timing (g : List RunnerStep) :
    (mergedRunner g).protoSteps.length = g.length
    ∧ (mergedRunner g).stepText.length = g.length
    ∧ (mergedRunner g).waitFor.length = g.length
    ∧ (mergedRunner g).failAfter.length = g.length
    ∧ (∀ i : Nat, (mergedRunner g).waitFor[i]?
        = (g[i]?).map (fun s => s.waitFor.headI))
    ∧ (∀ i : Nat, (mergedRunner g).failAfter[i]?
        = (g[i]?).map (fun s => s.failAfter.headI)) := by
  refine ⟨by simp [mergedRunner], by simp [mergedRunner], by simp [mergedRunner],
    by simp [mergedRunner], ?_, ?_⟩ <;>
  · intro i
    simp [mergedRunner, List.getElem?_map]

/-- C7: whether the run body returned a batch result or threw, the
guaranteed release hook invokes teardown exactly once, and teardown
failures only produce warnings: the exit flag is the same as it would be
with no failing session. -/
theorem c7_teardown_once_and_not_fatal (body : Except String BatchResult)
    (sessions : List Session) :
    (runCommandWithFinally body sessions).teardownInvocations = 1
    ∧ (runCommandWithFinally body sessions).exitFlag
        = (runCommandWithFinally body []).exitFlag := by
  cases body <;> simp [runCommandWithFinally]

/-- C8: the merged runner step of a non empty group is built with the cog
and the client handle of the first member, and both are unchanged when all
the other members are replaced arbitrarily. -/
theorem c8_merged_group_uses_first_client (s : RunnerStep) (ts ts2 : List RunnerStep) :
    (mergedRunner (s :: ts)).cog = s.cog
    ∧ (mergedRunner (s :: ts)).client = s.client
    ∧ (mergedRunner (s :: ts)).cog = (mergedRunner (s :: ts2)).cog
    ∧ (mergedRunner (s :: ts)).client = (mergedRunner (s :: ts2)).client := by
  simp [mergedRunner]

lemma eq_singleton_headI {α : Type} [Inhabited α] {l : List α} (h : l.length = 1) :
    l = [l.headI] := by
  obtain ⟨a, rfl⟩ := List.length_eq_one.mp h
  rfl

/-- C2: the optimized plan is a total order preserving partition of the
flat step list, and the coordinator executes every step exactly once:
the steps across plan elements are exactly the flat list in order, and
when every step carries one operation descriptor and one display text,
the descriptors and texts handed to the step runner, through the merged
runner step for groups, are exactly the original ones, once each, in
original relative order. -/
theorem c2_plan_is_order_preserving_partition (runs : List (List RunnerStep))
    (h : ∀ s ∈ runs.flatten, s.protoSteps.length = 1 ∧ s.stepText.length = 1) :
    ((optimizedSteps runs).map planSteps).flatten = runs.flatten
    ∧ ((optimizedSteps runs).map execDescriptors).flatten
        = runs.flatten.map (fun s => s.protoSteps.headI)
    ∧ ((optimizedSteps runs).map execTexts).flatten
        = runs.flatten.map (fun s => s.stepText.headI) := by
  induction runs with
  | nil => simp [optimizedSteps]
  | cons r rest ih =>
      have hr : ∀ s ∈ r, s.protoSteps.length = 1 ∧ s.stepText.length = 1 := by
        intro s hs
        exact h s (by rw [List.flatten_cons]; exact List.mem_append_left _ hs)
      obtain ⟨ih1, ih2, ih3⟩ := ih (fun s hs =>
        h s (by rw [List.flatten_cons]; exact List.mem_append_right _ hs))
      by_cases hone : r.length = 1
      · obtain ⟨x, rfl⟩ := List.length_eq_one.mp hone
        obtain ⟨hx1, hx2⟩ := hr x (by simp)
        obtain ⟨p, hp⟩ := List.length_eq_one.mp hx1
        obtain ⟨tx, htx⟩ := List.length_eq_one.mp hx2
        have hopt : optimizedSteps ([x] :: rest)
            = PlanElem.single x :: optimizedSteps rest := by
          simp [optimizedSteps]
        refine ⟨?_, ?_, ?_⟩ <;>
          simp [hopt, planSteps, execDescriptors, execTexts, List.flatten_cons,
            ih1, ih2, ih3, hp, htx]
      · have hopt : optimizedSteps (r :: rest)
            = PlanElem.group r :: optimizedSteps rest := by
          simp [optimizedSteps, hone]
        refine ⟨?_, ?_, ?_⟩ <;>
          simp [hopt, planSteps, execDescriptors, execTexts, mergedRunner,
            List.flatten_cons, ih1, ih2, ih3]

/-- Witness for C2 at a concrete two run plan, one single and one pair. -/
theorem c2_plan_is_order_preserving_partition_witness :
    (∀ s ∈ ([[⟨"c1", [⟨1⟩], ["x"], 0, [0], [0]⟩],
             [⟨"c2", [⟨2⟩], ["y"], 1, [1], [2]⟩,
              ⟨"c3", [⟨3⟩], ["z"], 2, [3], [4]⟩]] : List (List RunnerStep)).flatten,
        s.protoSteps.length = 1 ∧ s.stepText.length = 1)
    ∧ ((optimizedSteps [[⟨"c1", [⟨1⟩], ["x"], 0, [0], [0]⟩],
             [⟨"c2", [⟨2⟩], ["y"], 1, [1], [2]⟩,
              ⟨"c3", [⟨3⟩], ["z"], 2, [3], [4]⟩]]).map planSteps).flatten
        = ([[⟨"c1", [⟨1⟩], ["x"], 0, [0], [0]⟩],
             [⟨"c2", [⟨2⟩], ["y"], 1, [1], [2]⟩,
              ⟨"c3", [⟨3⟩], ["z"], 2, [3], [4]⟩]] : List (List RunnerStep)).flatten :=
  ⟨by decide,
   (c2_plan_is_order_preserving_partition
      [[⟨"c1", [⟨1⟩], ["x"], 0, [0], [0]⟩],
       [⟨"c2", [⟨2⟩], ["y"], 1, [1], [2]⟩,
        ⟨"c3", [⟨3⟩], ["z"], 2, [3], [4]⟩]] (by decide)).1⟩

/-- C10: a path that is not a directory is always parsed as one scenario
file; a directory in which the recursive glob finds no crank.yml file
makes parseScenarioFiles throw the no files error, and the run command
then reports the error, sets the exit flag and runs no scenario. -/
theorem c10_empty_directory_error (path : String) (files : List String) :
    parseScenarioFiles false files path = Except.ok [path]
    ∧ parseScenarioFiles true [] path
        = Except.error ("No .crank.yml files found in " ++ path)
    ∧ (files ≠ [] → parseScenarioFiles true files path = Except.ok files)
    ∧ (∀ msg, (runBatch (Except.error (RunError.generic msg))).exitFlag = true
        ∧ (runBatch (Except.error (RunError.generic msg))).timers = []
        ∧ LogEvent.errorDetail msg ∈ (runBatch (Except.error (RunError.generic msg))).log) := by
  refine ⟨by simp [parseScenarioFiles], by simp [parseScenarioFiles], ?_, ?_⟩
  · intro hne
    simp [parseScenarioFiles, hne]
  · intro msg
    refine ⟨by simp [runBatch], by simp [runBatch], by simp [runBatch, errMsg]⟩

lemma splitEq_ne_nil (l : List Char) : splitEq l ≠ [] := by
  induction l with
  | nil => simp [splitEq]
  | cons c cs ih =>
      by_cases h : c = '='
      · simp [splitEq, h]
      · cases hs : splitEq cs with
        | nil => exact absurd hs ih
        | cons p ps => simp [splitEq, h, hs]

lemma splitEq_sep_cons (cs : List Char) : splitEq ('=' :: cs) = [] :: splitEq cs := by
  simp [splitEq]

lemma joinEq_cons (p q : List Char) (qs : List (List Char)) :
    joinEq (p :: q :: qs) = p ++ '=' :: joinEq (q :: qs) := rfl

lemma splitEq_takeWhile_head (l : List Char) :
    ∃ ps, splitEq l = l.takeWhile (fun c => ! (c == '=')) :: ps := by
  induction l with
  | nil => exact ⟨[], rfl⟩
  | cons c cs ih =>
      by_cases h : c = '='
      · subst h
        exact ⟨splitEq cs, by simp [splitEq_sep_cons, List.takeWhile_cons]⟩
      · obtain ⟨ps, hps⟩ := ih
        exact ⟨ps, by simp [splitEq, h, hps, List.takeWhile_cons]⟩

lemma splitEq_parts_no_sep (l : List Char) : ∀ p ∈ splitEq l, '=' ∉ p := by
  induction l with
  | nil =>
      intro p hp
      simp [splitEq] at hp
      simp [hp]
  | cons c cs ih =>
      intro p hp
      by_cases h : c = '='
      · subst h
        rw [splitEq_sep_cons] at hp
        rcases List.mem_cons.mp hp with h1 | h1
        · simp [h1]
        · exact ih p h1
      · cases hs : splitEq cs with
        | nil => exact absurd hs (splitEq_ne_nil cs)
        | cons q qs =>
            rw [show splitEq (c :: cs) = (c :: q) :: qs from by simp [splitEq, h, hs]] at hp
            rcases List.mem_cons.mp hp with h1 | h1
            · subst h1
              intro hmem
              rcases List.mem_cons.mp hmem with h2 | h2
              · exact h h2.symm
              · exact ih q (by rw [hs]; exact List.mem_cons_self q qs) h2
            · exact ih p (by rw [hs]; exact List.mem_cons_of_mem q h1)

lemma splitEq_joinEq (l : List Char) : joinEq (splitEq l) = l := by
  induction l with
  | nil => rfl
  | cons c cs ih =>
      by_cases h : c = '='
      · subst h
        rw [splitEq_sep_cons]
        cases hs : splitEq cs with
        | nil => exact absurd hs (splitEq_ne_nil cs)
        | cons p ps =>
            rw [hs] at ih
            rw [joinEq_cons]
            simp [ih]
      · cases hs : splitEq cs with
        | nil => exact absurd hs (splitEq_ne_nil cs)
        | cons p ps =>
            rw [hs] at ih
            rw [show splitEq (c :: cs) = (c :: p) :: ps from by simp [splitEq, h, hs]]
            cases ps with
            | nil =>
                simp [joinEq] at ih ⊢
                simp [ih]
            | cons q qs =>
                rw [joinEq_cons]
                rw [joinEq_cons] at ih
                simp [← ih]

lemma takeWhile_of_no_sep (v : List Char) (h : '=' ∉ v) :
    v.takeWhile (fun c => ! (c == '=')) = v := by
  induction v with
  | nil => rfl
  | cons c cs ih =>
      have hc : ¬ c = '=' := fun hh => h (by simp [hh])
      have hcs : '=' ∉ cs := fun hh => h (List.mem_cons_of_mem c hh)
      simp [List.takeWhile_cons, hc, ih hcs]

lemma takeWhile_append_sep (v w : List Char) (h : '=' ∉ v) :
    (v ++ '=' :: w).takeWhile (fun c => ! (c == '=')) = v := by
  induction v with
  | nil => simp [List.takeWhile_cons]
  | cons c cs ih =>
      have hc : ¬ c = '=' := fun hh => h (by simp [hh])
      have hcs : '=' ∉ cs := fun hh => h (List.mem_cons_of_mem c hh)
      simp [List.takeWhile_cons, hc]
      exact ih hcs

lemma splitEq_append_sep (n r : List Char) (h : '=' ∉ n) :
    splitEq (n ++ '=' :: r) = n :: splitEq r := by
  induction n with
  | nil => simp [splitEq_sep_cons]
  | cons c cs ih =>
      have hc : ¬ c = '=' := fun hh => h (by simp [hh])
      have hcs : '=' ∉ cs := fun hh => h (List.mem_cons_of_mem c hh)
      simp [splitEq, hc, ih hcs]

lemma tokenEntry_eq_some_iff (tok n v : List Char) :
    tokenEntry tok = some (n, v) ↔
      n ≠ [] ∧ v ≠ [] ∧ '=' ∉ n
        ∧ ∃ r, tok = n ++ '=' :: r ∧ v = r.takeWhile (fun c => ! (c == '=')) := by
  constructor
  · intro h
    cases hs : splitEq tok with
    | nil => exact absurd hs (splitEq_ne_nil tok)
    | cons a rest =>
        cases rest with
        | nil =>
            simp only [tokenEntry, hs, List.take] at h
            exact absurd h (by simp)
        | cons b rest2 =>
            simp only [tokenEntry, hs, List.take] at h
            by_cases hab : a ≠ [] ∧ b ≠ []
            · rw [if_pos hab] at h
              obtain ⟨rfl, rfl⟩ : a = n ∧ b = v := by
                have := Option.some.inj h
                exact ⟨congrArg Prod.fst this, congrArg Prod.snd this⟩
              have hbns : '=' ∉ b :=
                splitEq_parts_no_sep tok b
                  (by rw [hs]; exact List.mem_cons_of_mem _ (List.mem_cons_self b rest2))
              refine ⟨hab.1, hab.2,
                splitEq_parts_no_sep tok a (by rw [hs]; exact List.mem_cons_self a _),
                joinEq (b :: rest2), ?_, ?_⟩
              · conv_lhs => rw [← splitEq_joinEq tok]
                rw [hs, joinEq_cons]
              · cases rest2 with
                | nil => simp [joinEq, takeWhile_of_no_sep b hbns]
                | cons q qs => rw [joinEq_cons, takeWhile_append_sep b _ hbns]
            · rw [if_neg hab] at h
              exact absurd h (by simp)
  · rintro ⟨hn, hv, hns, r, rfl, rfl⟩
    obtain ⟨ps, hps⟩ := splitEq_takeWhile_head r
    simp only [tokenEntry, splitEq_append_sep n r hns, hps, List.take]
    rw [if_pos ⟨hn, hv⟩]

lemma parseTokens_getLast (raws : List (List Char)) (n : List Char) :
    parseTokens raws n
      = (((raws.filterMap tokenEntry).filter (fun p => p.1 == n)).getLast?).map Prod.snd := by
  induction raws using List.reverseRecOn with
  | nil => rfl
  | append_singleton raws tok ih =>
      cases ht : tokenEntry tok with
      | none =>
          have hlhs : parseTokens (raws ++ [tok]) n = parseTokens raws n := by
            simp only [parseTokens, List.foldl_append, List.foldl_cons, List.foldl_nil, ht]
          rw [hlhs, ih, List.filterMap_append]
          simp [ht]
      | some nv =>
          obtain ⟨a, v⟩ := nv
          have hlhs : parseTokens (raws ++ [tok]) n
              = if n = a then some v else parseTokens raws n := by
            simp only [parseTokens, List.foldl_append, List.foldl_cons, List.foldl_nil, ht]
          rw [hlhs, List.filterMap_append]
          have hsingle : List.filterMap tokenEntry [tok] = [(a, v)] := by
            simp [ht]
          rw [hsingle, List.filter_append]
          by_cases han : a = n
          · have hf : List.filter (fun p => p.1 == n) [(a, v)] = [(a, v)] := by
              simp [han]
            rw [hf, if_pos han.symm]
            simp [List.getLast?_concat]
          · have hf : List.filter (fun p => p.1 == n) [(a, v)] = [] := by
              simp [han]
            rw [hf, if_neg (fun hh => han hh.symm), List.append_nil, ih]

lemma parseTokens_isSome_iff (raws : List (List Char)) (n : List Char) :
    (parseTokens raws n).isSome = true
      ↔ ∃ tok ∈ raws, ∃ v, tokenEntry tok = some (n, v) := by
  rw [parseTokens_getLast]
  have hmap : ∀ o : Option (List Char × List Char), (o.map Prod.snd).isSome = o.isSome := by
    intro o
    cases o <;> rfl
  rw [hmap, List.getLast?_isSome]
  constructor
  · intro hne
    obtain ⟨p, hp⟩ := List.exists_mem_of_ne_nil _ hne
    obtain ⟨hp1, hp2⟩ := List.mem_filter.mp hp
    obtain ⟨tok, htok, hte⟩ := List.mem_filterMap.mp hp1
    have hpn : p.1 = n := by simpa using hp2
    refine ⟨tok, htok, p.2, ?_⟩
    rw [hte]
    rw [show ((n : List Char), p.2) = p from by rw [← hpn]]
  · rintro ⟨tok, htok, v, hte⟩
    intro heq
    have hmem : ((n : List Char), v) ∈ (raws.filterMap tokenEntry).filter (fun p => p.1 == n) := by
      rw [List.mem_filter]
      exact ⟨List.mem_filterMap.mpr ⟨tok, htok, hte⟩, by simp⟩
    rw [heq] at hmem
    exact absurd hmem (List.not_mem_nil _)

lemma parseTokens_override (raws : List (List Char)) (tok n v : List Char)
    (h : tokenEntry tok = some (n, v)) :
    parseTokens (raws ++ [tok]) n = some v := by
  simp only [parseTokens, List.foldl_append, List.foldl_cons, List.foldl_nil, h]
  simp

/-- C9: characterization of Run.parseTokens. The mapping holds a value for
a name exactly when some raw flag value splits, on its equals signs with
limit two, into that non empty name and a non empty value; the stored
value is the segment between the first and the second equals sign, that
is the raw remainder truncated at the second separator; raw values with
no separator or an empty side contribute nothing; and among the raw
values that produce an entry for the same name the last one wins, a later
entry overriding any earlier mapping. -/
theorem c9_parseTokens_entry_characterization :
    (∀ raws n, parseTokens raws n
        = (((raws.filterMap tokenEntry).filter (fun p => p.1 == n)).getLast?).map Prod.snd)
    ∧ (∀ raws n, (parseTokens raws n).isSome = true
        ↔ ∃ tok ∈ raws, ∃ v, tokenEntry tok = some (n, v))
    ∧ (∀ tok n v, tokenEntry tok = some (n, v)
        ↔ n ≠ [] ∧ v ≠ [] ∧ '=' ∉ n
            ∧ ∃ r, tok = n ++ '=' :: r ∧ v = r.takeWhile (fun c => ! (c == '=')))
    ∧ (∀ raws tok n v, tokenEntry tok = some (n, v) →
        parseTokens (raws ++ [tok]) n = some v)
    ∧ parseTokens [['a', '=', 'b', '=', 'c']] ['a'] = some ['b']
    ∧ parseTokens [['a', '=', '=', 'b']] ['a'] = none
    ∧ (∀ k, parseTokens [['a', 'b']] k = none) :=
  ⟨parseTokens_getLast, parseTokens_isSome_iff, tokenEntry_eq_some_iff,
   parseTokens_override, by decide, by decide, fun k => rfl⟩

end Crank
